import Mathlib

/-!
Verification of the RSP (Radar Scanning Plot) polygon computation of
`scripts/rsp.py`, function `generate_polygon`.

The numeric code is embedded over `ℝ`.  numpy float operations that produce a
non-finite value (division by a zero denominator giving `inf`/`nan`, and any
value derived from one) are modeled by `Option ℝ` with `none` standing for
"the source computes a non-finite value here"; a numpy operation that raises
an exception (indexing with a mask of mismatched length, reducing an empty
array with `.min()`) makes the whole embedded function return `none`.
`resolution` is hard-coded to `1000` in the source; the embedding takes it as
a parameter `R` and `generate_polygon` instantiates `R = 1000`.
-/

noncomputable section

namespace RSP

/-- Dot-product projection of a 2D point onto the unit direction `(c, s)`
`= (cos θ, sin θ)`: `cos θ * x + sin θ * y`  (rsp.py lines 53-60). -/
def proj (c s : ℝ) (p : ℝ × ℝ) : ℝ := c * p.1 + s * p.2

/-- Projections of a whole point set onto the direction `(c, s)`. -/
def projections (c s : ℝ) (ps : List (ℝ × ℝ)) : List ℝ :=
  ps.map (proj c s)

/-- numpy `arr.min()` of a nonempty array; the source only applies it to
nonempty arrays (the empty case raises and is modeled at the call site). -/
def listMin : List ℝ → ℝ
  | [] => 0
  | x :: xs => xs.foldl min x

/-- numpy `arr.max()` of a nonempty array. -/
def listMax : List ℝ → ℝ
  | [] => 0
  | x :: xs => xs.foldl max x

/-- The combined minimum over both projection arrays (rsp.py line 62). -/
def jointMin (c s : ℝ) (fg bg : List (ℝ × ℝ)) : ℝ :=
  min (listMin (projections c s fg)) (listMin (projections c s bg))

/-- The combined maximum over both projection arrays (rsp.py line 63). -/
def jointMax (c s : ℝ) (fg bg : List (ℝ × ℝ)) : ℝ :=
  max (listMax (projections c s fg)) (listMax (projections c s bg))

/-- Bin index of `np.histogram(-, bins = R, range = (0, 1))` for a value
`x ∈ [0, 1]`: bin `i` is `[i/R, (i+1)/R)`, except the last bin which also
contains its right edge `1`. -/
def binIdx (R : ℕ) (x : ℝ) : ℕ := min (Int.toNat ⌊x * (R : ℝ)⌋) (R - 1)

/-- Count of one histogram bin: `np.histogram` counts a value iff it lies in
the closed range `[0, 1]` (values outside the range are dropped). -/
def histCount (R : ℕ) (xs : List ℝ) (i : ℕ) : ℕ :=
  xs.countP fun x => decide (0 ≤ x ∧ x ≤ 1 ∧ binIdx R x = i)

/-- Entry `i` of `np.cumsum` of the histogram: the sum of bins `0..i`
(rsp.py lines 77, 80). -/
def cdfVal (R : ℕ) (xs : List ℝ) (i : ℕ) : ℕ :=
  ∑ j ∈ Finset.range (i + 1), histCount R xs j

/-- Joint min-max normalization of one side's projections (rsp.py lines
65-67): `(projection - min_val) / (max_val - min_val)` with the combined
min and max of *both* sides at this direction. -/
def normProj (c s : ℝ) (fg bg : List (ℝ × ℝ)) (side : List (ℝ × ℝ)) :
    List ℝ :=
  (projections c s side).map fun x =>
    (x - jointMin c s fg bg) / (jointMax c s fg bg - jointMin c s fg bg)

/-- One iteration of the scan loop (rsp.py lines 51-84) at direction
`(c, s) = (cos θ, sin θ)`.  A zero normalization denominator, or a zero
final CDF value, makes the source compute `nan` for this angle: `none`. -/
def divergenceAt (R : ℕ) (c s : ℝ) (fg bg : List (ℝ × ℝ)) : Option ℝ :=
  if jointMax c s fg bg - jointMin c s fg bg = 0 then none
  else if cdfVal R (normProj c s fg bg fg) (R - 1) = 0 ∨
      cdfVal R (normProj c s fg bg bg) (R - 1) = 0 then none
  else some (∑ i ∈ Finset.range R,
    |(cdfVal R (normProj c s fg bg fg) i : ℝ) /
        (cdfVal R (normProj c s fg bg fg) (R - 1) : ℝ) -
      (cdfVal R (normProj c s fg bg bg) i : ℝ) /
        (cdfVal R (normProj c s fg bg bg) (R - 1) : ℝ)|)

/-- `np.linspace(a, b, n)`: `n` evenly spaced samples whose first element is
`a` and whose last element is `b` (the endpoint IS included); the step
between consecutive samples is `(b - a) / (n - 1)`. -/
def linspace (a b : ℝ) (n : ℕ) : List ℝ :=
  if n = 0 then []
  else if n = 1 then [a]
  else (List.range n).map fun i : ℕ => a + (i : ℝ) * ((b - a) / ((n : ℝ) - 1))

/-- The divergence-scan stage of `generate_polygon` (rsp.py lines 44-84).
If the background set is empty the loop is skipped and the sequence is all
zeros (lines 48-49).  Otherwise, an empty foreground makes the first loop
iteration raise (`.min()` of a zero-size array): the whole scan is `none`. -/
def scanDivergences (R : ℕ) (fg bg : List (ℝ × ℝ)) (thetaS thetaE : ℝ) :
    Option (List (Option ℝ)) :=
  if bg = [] then some (List.replicate R (some 0))
  else if fg = [] ∧ R ≠ 0 then none
  else some ((linspace thetaS thetaE R).map fun θ =>
    divergenceAt R (Real.cos θ) (Real.sin θ) fg bg)

/-- Float division as the source performs it: a zero denominator yields a
non-finite value (`inf` or `nan`) rather than a number, modeled as `none`. -/
def fdiv (x y : ℝ) : Option ℝ := if y = 0 then none else some (x / y)

/-- `angle_step = (theta_end - theta_start) / resolution` (rsp.py line 36). -/
def angleStep (thetaS thetaE : ℝ) (R : ℕ) : ℝ := (thetaE - thetaS) / (R : ℝ)

/-- Chord height of one wedge: `h = diff / (sin(angle_step / 2) * resolution)`
(rsp.py line 93), propagating a `nan` divergence. -/
def chordHeight (R : ℕ) (thetaS thetaE : ℝ) (d : Option ℝ) : Option ℝ :=
  d.bind fun x => fdiv x (Real.sin (angleStep thetaS thetaE R / 2) * (R : ℝ))

/-- Radius normalization `r / total_expressing_cells` (rsp.py line 98): a
zero foreground count divides by zero. -/
def normRadius (total : ℕ) (r : Option ℝ) : Option ℝ :=
  r.bind fun x => fdiv x (total : ℝ)

/-- Consecutive pairs `(l[0], l[1]), (l[2], l[3]), ...` as enumerated by
`range(0, len(l) - 1, 2)` (rsp.py line 101); a trailing unpaired element is
dropped, exactly as the `i + 1 ≤ len - 1` bound does. -/
def pairUp {γ : Type} : List γ → List (γ × γ)
  | a :: b :: rest => (a, b) :: pairUp rest
  | _ => []

/-- Circular-segment area of one vertex pair:
`0.5 * (theta_b - theta_a) * (r_a ** 2 + r_b ** 2)` (rsp.py lines 102-103),
`nan` radii propagating. -/
def wedgeArea (p : (ℝ × Option ℝ) × (ℝ × Option ℝ)) : Option ℝ :=
  match p.1.2, p.2.2 with
  | some ra, some rb => some (0.5 * (p.2.1 - p.1.1) * (ra ^ 2 + rb ^ 2))
  | _, _ => none

/-- `np.sum` over a float list: any `nan` poisons the sum. -/
def optSum : List (Option ℝ) → Option ℝ
  | [] => some 0
  | x :: xs => x.bind fun a => (optSum xs).map fun b => a + b

/-- `np.max` over a float list: any `nan` poisons the maximum; the empty
list raises (never reached by the source: the radius list has length
`2 * resolution`). -/
def optMax : List (Option ℝ) → Option ℝ
  | [] => none
  | x :: xs =>
    xs.foldl (fun acc y =>
      match acc, y with
      | some a, some b => some (max a b)
      | _, _ => none) x

/-- Everything `generate_polygon` derives from the divergence sequence:
the polygon vertex lists and the two scalar metrics. -/
structure PolygonResult where
  differences : List (Option ℝ)
  polyAngles : List ℝ
  polyRadii : List (Option ℝ)
  polygonArea : Option ℝ
  roundness : Option ℝ

/-- The polygon-construction stage of `generate_polygon` (rsp.py lines
86-113): two vertices per angle with the chord height as radius, radii
normalized by the foreground count, wedge areas summed, and the roundness
`|polygon_area - pi * r_max ** 2| / (pi * r_max ** 2)`. -/
def synthesize (R : ℕ) (thetaS thetaE : ℝ) (diffs : List (Option ℝ))
    (total : ℕ) : PolygonResult :=
  let pairs := (linspace thetaS thetaE R).zip diffs
  let polyAngles := (pairs.map fun p => [p.1, p.1 + angleStep thetaS thetaE R]).flatten
  let radiiRaw := (pairs.map fun p =>
    [chordHeight R thetaS thetaE p.2, chordHeight R thetaS thetaE p.2]).flatten
  let radii := radiiRaw.map (normRadius total)
  let segmentAreas := (pairUp (polyAngles.zip radii)).map wedgeArea
  let polygonArea := optSum segmentAreas
  let biggestRadius := optMax radii
  let roundness := polygonArea.bind fun A => biggestRadius.bind fun M =>
    fdiv |A - Real.pi * M ^ 2| (Real.pi * M ^ 2)
  ⟨diffs, polyAngles, radii, polygonArea, roundness⟩

/-- `coordinates[is_expressing]`: the foreground point set. -/
def foregroundOf (coords : List (ℝ × ℝ)) (mask : List Bool) : List (ℝ × ℝ) :=
  ((coords.zip mask).filter fun p => p.2).map Prod.fst

/-- `coordinates[~is_expressing]`: the background point set. -/
def backgroundOf (coords : List (ℝ × ℝ)) (mask : List Bool) : List (ℝ × ℝ) :=
  ((coords.zip mask).filter fun p => !p.2).map Prod.fst

/-- `generate_polygon` (rsp.py lines 16-151) at an explicit resolution `R`.
numpy boolean indexing raises `IndexError` when the mask length differs
from the coordinate count: `none`. -/
def generatePolygonRes (R : ℕ) (coords : List (ℝ × ℝ)) (mask : List Bool)
    (thetaS thetaE : ℝ) : Option PolygonResult :=
  if mask.length ≠ coords.length then none
  else
    (scanDivergences R (foregroundOf coords mask) (backgroundOf coords mask)
        thetaS thetaE).map
      fun diffs => synthesize R thetaS thetaE diffs (mask.count true)

/-- `generate_polygon` with the source's hard-coded `resolution = 1000`. -/
def generate_polygon (coords : List (ℝ × ℝ)) (mask : List Bool)
    (thetaS thetaE : ℝ) : Option PolygonResult :=
  generatePolygonRes 1000 coords mask thetaS thetaE

/-- Spec formulation of the cumulative histogram (spec section 4.1, steps
3-4): the cumulative count through bin `i` is the number of values of the
array lying in `[0, 1]` whose bin index is at most `i`. -/
def cdfCumCount (R : ℕ) (xs : List ℝ) (i : ℕ) : ℕ :=
  xs.countP fun x => decide (0 ≤ x ∧ x ≤ 1 ∧ binIdx R x ≤ i)

/-- Spec formulation of the per-angle divergence (spec section 4.1, steps
1-5): project both sets, jointly min-max normalize with the combined min and
max, and take the L1 distance between the two empirical CDFs, each
normalized by its own final cumulative value - which equals the side's
point count. -/
def divergenceSpecL1 (R : ℕ) (c s : ℝ) (fg bg : List (ℝ × ℝ)) : ℝ :=
  ∑ i ∈ Finset.range R,
    |(cdfCumCount R (normProj c s fg bg fg) i : ℝ) / (fg.length : ℝ) -
      (cdfCumCount R (normProj c s fg bg bg) i : ℝ) / (bg.length : ℝ)|

/-- Uniform scaling of a point set by `k` (spec section 8, scale
invariance). -/
def scale (k : ℝ) (ps : List (ℝ × ℝ)) : List (ℝ × ℝ) :=
  ps.map fun p => (k * p.1, k * p.2)

/-- Spec formulation of one polygon radius (spec section 4.2, steps 1 and
3): the chord height `h = d / (sin(Δθ/2) · R)` divided by the total
foreground count. -/
def chordNorm (R : ℕ) (ts te : ℝ) (n : ℕ) (d : ℝ) : ℝ :=
  d / (Real.sin (angleStep ts te R / 2) * (R : ℝ)) / (n : ℝ)

/-- Spec formulation of the nonnegativity contract (spec section 8): every
finite `polygon_area` and `roundness` the computation returns is `≥ 0`. -/
def nonnegResult (o : Option PolygonResult) : Prop :=
  ∀ res ∈ o, (∀ A ∈ res.polygonArea, 0 ≤ A) ∧ ∀ rd ∈ res.roundness, 0 ≤ rd

/-! ### Lemmas about list minima and maxima -/

lemma foldl_min_le_init (xs : List ℝ) : ∀ a : ℝ, xs.foldl min a ≤ a := by
  induction xs with
  | nil => intro a; simp
  | cons x xs ih =>
    intro a
    exact le_trans (ih (min a x)) (min_le_left _ _)

lemma foldl_min_le_of_mem {x : ℝ} {xs : List ℝ} (hx : x ∈ xs) :
    ∀ a : ℝ, xs.foldl min a ≤ x := by
  induction xs with
  | nil => cases hx
  | cons y ys ih =>
    intro a
    rcases List.mem_cons.mp hx with h | h
    · subst h
      exact le_trans (foldl_min_le_init ys _) (min_le_right _ _)
    · exact ih h _

lemma listMin_le_of_mem {x : ℝ} {xs : List ℝ} (hx : x ∈ xs) :
    listMin xs ≤ x := by
  cases xs with
  | nil => cases hx
  | cons y ys =>
    rcases List.mem_cons.mp hx with h | h
    · subst h; exact foldl_min_le_init ys _
    · exact foldl_min_le_of_mem h y

lemma init_le_foldl_max (xs : List ℝ) : ∀ a : ℝ, a ≤ xs.foldl max a := by
  induction xs with
  | nil => intro a; simp
  | cons x xs ih =>
    intro a
    exact le_trans (le_max_left _ _) (ih (max a x))

lemma le_foldl_max_of_mem {x : ℝ} {xs : List ℝ} (hx : x ∈ xs) :
    ∀ a : ℝ, x ≤ xs.foldl max a := by
  induction xs with
  | nil => cases hx
  | cons y ys ih =>
    intro a
    rcases List.mem_cons.mp hx with h | h
    · subst h
      exact le_trans (le_max_right _ _) (init_le_foldl_max ys _)
    · exact ih h _

lemma le_listMax_of_mem {x : ℝ} {xs : List ℝ} (hx : x ∈ xs) :
    x ≤ listMax xs := by
  cases xs with
  | nil => cases hx
  | cons y ys =>
    rcases List.mem_cons.mp hx with h | h
    · subst h; exact init_le_foldl_max ys _
    · exact le_foldl_max_of_mem h y

lemma jointMin_le_of_mem_fg {c s v : ℝ} {fg bg : List (ℝ × ℝ)}
    (hv : v ∈ projections c s fg) : jointMin c s fg bg ≤ v :=
  le_trans (min_le_left _ _) (listMin_le_of_mem hv)

lemma jointMin_le_of_mem_bg {c s v : ℝ} {fg bg : List (ℝ × ℝ)}
    (hv : v ∈ projections c s bg) : jointMin c s fg bg ≤ v :=
  le_trans (min_le_right _ _) (listMin_le_of_mem hv)

lemma le_jointMax_of_mem_fg {c s v : ℝ} {fg bg : List (ℝ × ℝ)}
    (hv : v ∈ projections c s fg) : v ≤ jointMax c s fg bg :=
  le_trans (le_listMax_of_mem hv) (le_max_left _ _)

lemma le_jointMax_of_mem_bg {c s v : ℝ} {fg bg : List (ℝ × ℝ)}
    (hv : v ∈ projections c s bg) : v ≤ jointMax c s fg bg :=
  le_trans (le_listMax_of_mem hv) (le_max_right _ _)

lemma jointMin_le_jointMax {c s : ℝ} {fg bg : List (ℝ × ℝ)}
    (hf : fg ≠ []) : jointMin c s fg bg ≤ jointMax c s fg bg := by
  obtain ⟨p, hp⟩ := List.exists_mem_of_ne_nil fg hf
  have hv : proj c s p ∈ projections c s fg := List.mem_map_of_mem _ hp
  exact le_trans (jointMin_le_of_mem_fg hv) (le_jointMax_of_mem_fg hv)

/-! ### Lemmas about the histogram and its cumulative sums -/

lemma binIdx_le (R : ℕ) (x : ℝ) : binIdx R x ≤ R - 1 :=
  min_le_right _ _

lemma cdfVal_eq_cumCount (R : ℕ) (xs : List ℝ) (i : ℕ) :
    cdfVal R xs i = cdfCumCount R xs i := by
  induction xs with
  | nil => simp [cdfVal, histCount, cdfCumCount]
  | cons x xs ih =>
    unfold cdfVal histCount at *
    unfold cdfCumCount at *
    simp only [List.countP_cons, decide_eq_true_eq] at *
    rw [Finset.sum_add_distrib, ih]
    congr 1
    by_cases h0 : 0 ≤ x ∧ x ≤ 1
    · simp only [h0.1, h0.2, true_and]
      rw [Finset.sum_ite_eq (Finset.range (i + 1)) (binIdx R x) (fun _ => 1)]
      simp [Finset.mem_range, Nat.lt_succ_iff]
    · have hall : ∀ j : ℕ, ¬(0 ≤ x ∧ x ≤ 1 ∧ binIdx R x = j) := by
        intro j hj; exact h0 ⟨hj.1, hj.2.1⟩
      have hle : ¬(0 ≤ x ∧ x ≤ 1 ∧ binIdx R x ≤ i) := by
        intro hj; exact h0 ⟨hj.1, hj.2.1⟩
      simp [hall, hle]

lemma cdfCumCount_last {R : ℕ} {xs : List ℝ}
    (h : ∀ x ∈ xs, 0 ≤ x ∧ x ≤ 1) : cdfCumCount R xs (R - 1) = xs.length := by
  apply List.countP_eq_length.mpr
  intro a ha
  simp only [decide_eq_true_eq]
  exact ⟨(h a ha).1, (h a ha).2, binIdx_le R a⟩

/-! ### The normalized projections lie in the unit interval -/

lemma normProj_length (c s : ℝ) (fg bg side : List (ℝ × ℝ)) :
    (normProj c s fg bg side).length = side.length := by
  simp [normProj, projections]

lemma normProj_fg_mem_unit {c s : ℝ} {fg bg : List (ℝ × ℝ)}
    (hlt : jointMin c s fg bg < jointMax c s fg bg) :
    ∀ x ∈ normProj c s fg bg fg, 0 ≤ x ∧ x ≤ 1 := by
  intro x hx
  obtain ⟨v, hv, rfl⟩ := List.mem_map.mp hx
  have h1 : jointMin c s fg bg ≤ v := jointMin_le_of_mem_fg hv
  have h2 : v ≤ jointMax c s fg bg := le_jointMax_of_mem_fg hv
  have hpos := sub_pos.mpr hlt
  exact ⟨div_nonneg (sub_nonneg.mpr h1) (le_of_lt hpos),
    (div_le_one hpos).mpr (sub_le_sub_right h2 _)⟩

lemma normProj_bg_mem_unit {c s : ℝ} {fg bg : List (ℝ × ℝ)}
    (hlt : jointMin c s fg bg < jointMax c s fg bg) :
    ∀ x ∈ normProj c s fg bg bg, 0 ≤ x ∧ x ≤ 1 := by
  intro x hx
  obtain ⟨v, hv, rfl⟩ := List.mem_map.mp hx
  have h1 : jointMin c s fg bg ≤ v := jointMin_le_of_mem_bg hv
  have h2 : v ≤ jointMax c s fg bg := le_jointMax_of_mem_bg hv
  have hpos := sub_pos.mpr hlt
  exact ⟨div_nonneg (sub_nonneg.mpr h1) (le_of_lt hpos),
    (div_le_one hpos).mpr (sub_le_sub_right h2 _)⟩

/-- The scan-loop body computes exactly the spec's jointly normalized
L1 CDF distance; shared auxiliary fact. -/
lemma divergenceAt_eq_specL1_aux (R : ℕ) (c s : ℝ) (fg bg : List (ℝ × ℝ))
    (hf : fg ≠ []) (hb : bg ≠ [])
    (hd : jointMax c s fg bg ≠ jointMin c s fg bg) :
    divergenceAt R c s fg bg = some (divergenceSpecL1 R c s fg bg) := by
  have hle : jointMin c s fg bg ≤ jointMax c s fg bg := jointMin_le_jointMax hf
  have hlt : jointMin c s fg bg < jointMax c s fg bg :=
    lt_of_le_of_ne hle (Ne.symm hd)
  have hd0 : jointMax c s fg bg - jointMin c s fg bg ≠ 0 := sub_ne_zero.mpr hd
  have hcf : cdfVal R (normProj c s fg bg fg) (R - 1) = fg.length := by
    rw [cdfVal_eq_cumCount, cdfCumCount_last (normProj_fg_mem_unit hlt),
      normProj_length]
  have hcb : cdfVal R (normProj c s fg bg bg) (R - 1) = bg.length := by
    rw [cdfVal_eq_cumCount, cdfCumCount_last (normProj_bg_mem_unit hlt),
      normProj_length]
  have hfne : fg.length ≠ 0 := fun h => hf (List.length_eq_zero.mp h)
  have hbne : bg.length ≠ 0 := fun h => hb (List.length_eq_zero.mp h)
  unfold divergenceAt
  rw [if_neg hd0, if_neg (by rw [hcf, hcb]; exact not_or.mpr ⟨hfne, hbne⟩)]
  unfold divergenceSpecL1
  congr 1
  apply Finset.sum_congr rfl
  intro i _
  rw [hcf, hcb, cdfVal_eq_cumCount, cdfVal_eq_cumCount]

/-! ### Structural lemmas about the polygon's two-vertices-per-wedge lists -/

lemma flatten_pairs_length {γ δ : Type} (zs : List γ) (p q : γ → δ) :
    ((zs.map fun z => [p z, q z]).flatten).length = 2 * zs.length := by
  induction zs with
  | nil => simp
  | cons z zs ih =>
    simp only [List.map_cons, List.flatten_cons, List.length_append,
      List.length_cons, ih]
    simp [Nat.mul_succ]
    omega

lemma zip_flatten_pairs {γ δ ε : Type} (zs : List γ) (a₁ a₂ : γ → δ)
    (b₁ b₂ : γ → ε) :
    ((zs.map fun z => [a₁ z, a₂ z]).flatten).zip
        ((zs.map fun z => [b₁ z, b₂ z]).flatten) =
      (zs.map fun z => [(a₁ z, b₁ z), (a₂ z, b₂ z)]).flatten := by
  induction zs with
  | nil => simp
  | cons z zs ih =>
    simp only [List.map_cons, List.flatten_cons, List.cons_append,
      List.nil_append, List.zip_cons_cons, ih]

lemma pairUp_flatten_pairs {γ δ : Type} (zs : List γ) (p q : γ → δ) :
    pairUp ((zs.map fun z => [p z, q z]).flatten) = zs.map fun z => (p z, q z) := by
  induction zs with
  | nil => simp [pairUp]
  | cons z zs ih =>
    simp only [List.map_cons, List.flatten_cons, List.cons_append,
      List.nil_append]
    rw [pairUp, ih]

/-! ### Lemmas about the nan-propagating sum and maximum -/

lemma optSum_map_some {γ : Type} (xs : List γ) (f : γ → ℝ) :
    optSum (xs.map fun x => some (f x)) = some ((xs.map f).sum) := by
  induction xs with
  | nil => simp [optSum]
  | cons x xs ih => simp [optSum, ih]

lemma optSum_const_none {γ : Type} {xs : List γ}(h : xs ≠ []) :
    optSum (xs.map fun _ => (none : Option ℝ)) = none := by
  cases xs with
  | nil => exact absurd rfl h
  | cons x xs => simp [optSum]

lemma optSum_nonneg {xs : List (Option ℝ)}
    (h : ∀ x ∈ xs, ∀ v : ℝ, x = some v → 0 ≤ v) :
    ∀ A : ℝ, optSum xs = some A → 0 ≤ A := by
  induction xs with
  | nil =>
    intro A hA
    simp only [optSum, Option.some_inj] at hA
    exact hA ▸ le_refl 0
  | cons x xs ih =>
    intro A hA
    unfold optSum at hA
    cases hx : x with
    | none => rw [hx] at hA; exact absurd hA (by simp)
    | some a =>
      rw [hx] at hA
      cases hs : optSum xs with
      | none => rw [hs] at hA; exact absurd hA (by simp)
      | some b =>
        rw [hs] at hA
        simp only [Option.some_bind, Option.map_some', Option.some_inj] at hA
        have ha : 0 ≤ a := h x (List.mem_cons_self x xs) a hx
        have hb : 0 ≤ b := ih (fun y hy => h y (List.mem_cons_of_mem x hy)) b hs
        exact hA ▸ add_nonneg ha hb

lemma foldl_optMax_map_some (a : ℝ) (xs : List ℝ) :
    (xs.map some).foldl (fun acc y =>
      match acc, y with
      | some u, some v => some (max u v)
      | _, _ => none) (some a) = some (xs.foldl max a) := by
  induction xs generalizing a with
  | nil => simp
  | cons x xs ih => simp [ih]

lemma optMax_map_some (x : ℝ) (xs : List ℝ) :
    optMax ((x :: xs).map some) = some (listMax (x :: xs)) := by
  simp only [List.map_cons, optMax, listMax]
  exact foldl_optMax_map_some x xs

lemma foldl_max_flatten_dup {γ : Type} (zs : List γ) (f : γ → ℝ) :
    ∀ a : ℝ, ((zs.map fun z => [f z, f z]).flatten).foldl max a =
      (zs.map f).foldl max a := by
  induction zs with
  | nil => intro a; simp
  | cons z zs ih =>
    intro a
    simp only [List.map_cons, List.flatten_cons, List.cons_append,
      List.nil_append, List.foldl_cons, max_assoc, max_self]
    exact ih _

lemma listMax_flatten_dup {γ : Type} {zs : List γ} (f : γ → ℝ) (h : zs ≠ []) :
    listMax ((zs.map fun z => [f z, f z]).flatten) = listMax (zs.map f) := by
  cases zs with
  | nil => exact absurd rfl h
  | cons z zs =>
    simp only [List.map_cons, List.flatten_cons, List.cons_append,
      List.nil_append, listMax]
    rw [List.foldl_cons, max_self]
    exact foldl_max_flatten_dup zs f (f z)

lemma optSum_replicate_zero (n : ℕ) :
    optSum (List.replicate n (some (0:ℝ))) = some 0 := by
  induction n with
  | zero => simp [optSum]
  | succ k ih => simp [List.replicate_succ, optSum, ih]

lemma optSum_replicate_none {n : ℕ} (h : n ≠ 0) :
    optSum (List.replicate n (none : Option ℝ)) = none := by
  cases n with
  | zero => exact absurd rfl h
  | succ k => simp [List.replicate_succ, optSum]

lemma optMax_replicate_zero {n : ℕ} (h : n ≠ 0) :
    optMax (List.replicate n (some (0:ℝ))) = some 0 := by
  cases n with
  | zero => exact absurd rfl h
  | succ k =>
    rw [← List.map_replicate]
    cases k with
    | zero => simp [optMax, listMax]
    | succ m =>
      rw [show List.replicate (m + 1 + 1) (0:ℝ) = 0 :: List.replicate (m + 1) 0
          from rfl]
      rw [optMax_map_some]
      congr 1
      rw [show List.replicate (m + 1) (0:ℝ) = 0 :: List.replicate m 0 from rfl,
        listMax]
      induction m with
      | zero => simp
      | succ j ihj => simpa [List.replicate_succ, List.foldl_cons] using ihj

/-! ### Unfolding lemmas for the polygon synthesizer -/

lemma synthesize_differences (R : ℕ) (ts te : ℝ) (diffs : List (Option ℝ))
    (total : ℕ) : (synthesize R ts te diffs total).differences = diffs := rfl

lemma synthesize_polyAngles (R : ℕ) (ts te : ℝ) (diffs : List (Option ℝ))
    (total : ℕ) :
    (synthesize R ts te diffs total).polyAngles =
      (((linspace ts te R).zip diffs).map fun p =>
        [p.1, p.1 + angleStep ts te R]).flatten := rfl

lemma synthesize_polyRadii (R : ℕ) (ts te : ℝ) (diffs : List (Option ℝ))
    (total : ℕ) :
    (synthesize R ts te diffs total).polyRadii =
      ((((linspace ts te R).zip diffs).map fun p =>
        [chordHeight R ts te p.2, chordHeight R ts te p.2]).flatten).map
        (normRadius total) := rfl

lemma synthesize_polygonArea (R : ℕ) (ts te : ℝ) (diffs : List (Option ℝ))
    (total : ℕ) :
    (synthesize R ts te diffs total).polygonArea =
      optSum ((pairUp ((synthesize R ts te diffs total).polyAngles.zip
        (synthesize R ts te diffs total).polyRadii)).map wedgeArea) := rfl

lemma synthesize_roundness (R : ℕ) (ts te : ℝ) (diffs : List (Option ℝ))
    (total : ℕ) :
    (synthesize R ts te diffs total).roundness =
      (synthesize R ts te diffs total).polygonArea.bind fun A =>
        (optMax (synthesize R ts te diffs total).polyRadii).bind fun M =>
          fdiv |A - Real.pi * M ^ 2| (Real.pi * M ^ 2) := rfl

lemma chordHeight_some_zero {R : ℕ} {ts te : ℝ}
    (hs : Real.sin (angleStep ts te R / 2) * (R : ℝ) ≠ 0) :
    chordHeight R ts te (some 0) = some 0 := by
  simp [chordHeight, fdiv, hs]

lemma normRadius_some_zero {total : ℕ} (ht : total ≠ 0) :
    normRadius total (some 0) = some 0 := by
  simp [normRadius, fdiv, Nat.cast_ne_zero.mpr ht]

lemma normRadius_total_zero (r : Option ℝ) : normRadius 0 r = none := by
  cases r <;> simp [normRadius, fdiv]

lemma mem_zip_replicate_snd {γ δ : Type} {p : γ × δ} {xs : List γ} {n : ℕ}
    {v : δ} (h : p ∈ xs.zip (List.replicate n v)) : p.2 = v := by
  obtain ⟨a, b⟩ := p
  exact (List.mem_replicate.mp (List.of_mem_zip h).2).2

lemma flatten_const_pairs {γ δ : Type} (zs : List γ) (v : δ) :
    ((zs.map fun _ => [v, v]).flatten) = List.replicate (2 * zs.length) v := by
  induction zs with
  | nil => simp
  | cons z zs ih =>
    simp only [List.map_cons, List.flatten_cons, List.cons_append,
      List.nil_append, ih, List.length_cons]
    rw [show 2 * (zs.length + 1) = 2 * zs.length + 1 + 1 by omega,
      List.replicate_succ, List.replicate_succ]

lemma linspace_length (a b : ℝ) (n : ℕ) : (linspace a b n).length = n := by
  unfold linspace
  split_ifs with h1 h2
  · simp [h1]
  · simp [h2]
  · rw [List.length_map, List.length_range]

/-! ### The synthesizer on an all-zero divergence sequence -/

lemma synthesize_zero_radii_blocks {R total : ℕ} {ts te : ℝ}
    (hs : Real.sin (angleStep ts te R / 2) * (R : ℝ) ≠ 0) (ht : total ≠ 0) :
    (synthesize R ts te (List.replicate R (some 0)) total).polyRadii =
      (((linspace ts te R).zip (List.replicate R (some (0:ℝ)))).map fun _ =>
        [some (0:ℝ), some 0]).flatten := by
  rw [synthesize_polyRadii, List.map_flatten, List.map_map]
  congr 1
  apply List.map_congr_left
  intro p hp
  have h2 := mem_zip_replicate_snd hp
  simp only [Function.comp_apply, List.map_cons, List.map_nil, h2,
    chordHeight_some_zero hs, normRadius_some_zero ht]

lemma synthesize_zero_radii {R total : ℕ} {ts te : ℝ}
    (hs : Real.sin (angleStep ts te R / 2) * (R : ℝ) ≠ 0) (ht : total ≠ 0) :
    (synthesize R ts te (List.replicate R (some 0)) total).polyRadii =
      List.replicate (2 * R) (some 0) := by
  rw [synthesize_zero_radii_blocks hs ht, flatten_const_pairs,
    List.length_zip, linspace_length, List.length_replicate, min_self]

lemma synthesize_zero_area {R total : ℕ} {ts te : ℝ}
    (hs : Real.sin (angleStep ts te R / 2) * (R : ℝ) ≠ 0) (ht : total ≠ 0) :
    (synthesize R ts te (List.replicate R (some 0)) total).polygonArea =
      some 0 := by
  rw [synthesize_polygonArea, synthesize_zero_radii_blocks hs ht,
    synthesize_polyAngles, zip_flatten_pairs, pairUp_flatten_pairs,
    List.map_map]
  have hc : ∀ p ∈ (linspace ts te R).zip (List.replicate R (some (0:ℝ))),
      (wedgeArea ∘ fun z =>
        ((z.1, some (0:ℝ)), (z.1 + angleStep ts te R, some (0:ℝ)))) p =
        some (0:ℝ) := by
    intro p _
    simp [wedgeArea]
  rw [List.map_congr_left hc, List.map_const', optSum_replicate_zero]

lemma synthesize_zero_roundness {R total : ℕ} {ts te : ℝ}
    (hs : Real.sin (angleStep ts te R / 2) * (R : ℝ) ≠ 0) (ht : total ≠ 0)
    (hR : R ≠ 0) :
    (synthesize R ts te (List.replicate R (some 0)) total).roundness =
      none := by
  rw [synthesize_roundness, synthesize_zero_area hs ht,
    synthesize_zero_radii hs ht, optMax_replicate_zero (by omega : 2 * R ≠ 0)]
  simp [fdiv]

/-! ### The synthesizer when the foreground count is zero -/

lemma synthesize_total_zero_radii {R : ℕ} {ts te : ℝ}
    {diffs : List (Option ℝ)} :
    (synthesize R ts te diffs 0).polyRadii =
      (((linspace ts te R).zip diffs).map fun _ =>
        [(none : Option ℝ), none]).flatten := by
  rw [synthesize_polyRadii, List.map_flatten, List.map_map]
  congr 1
  apply List.map_congr_left
  intro p _
  simp only [Function.comp_apply, List.map_cons, List.map_nil,
    normRadius_total_zero]

lemma synthesize_total_zero_area {R : ℕ} {ts te : ℝ}
    {diffs : List (Option ℝ)} (hlen : diffs.length = R) (hR : R ≠ 0) :
    (synthesize R ts te diffs 0).polygonArea = none := by
  rw [synthesize_polygonArea, synthesize_total_zero_radii,
    synthesize_polyAngles, zip_flatten_pairs, pairUp_flatten_pairs,
    List.map_map]
  have hne : (linspace ts te R).zip diffs ≠ [] := by
    intro h
    have := congrArg List.length h
    rw [List.length_zip, linspace_length, hlen, min_self] at this
    exact hR this
  have hc : ∀ p ∈ (linspace ts te R).zip diffs,
      (wedgeArea ∘ fun z =>
        ((z.1, (none : Option ℝ)), (z.1 + angleStep ts te R, none))) p =
        (none : Option ℝ) := by
    intro p _
    simp [wedgeArea]
  rw [List.map_congr_left hc]
  exact optSum_const_none hne

lemma synthesize_total_zero_roundness {R : ℕ} {ts te : ℝ}
    {diffs : List (Option ℝ)} (hlen : diffs.length = R) (hR : R ≠ 0) :
    (synthesize R ts te diffs 0).roundness = none := by
  rw [synthesize_roundness, synthesize_total_zero_area hlen hR]
  rfl

/-! ### The synthesizer on an all-finite divergence sequence -/

lemma chordHeight_some {R : ℕ} {ts te : ℝ} (d : ℝ)
    (hs : Real.sin (angleStep ts te R / 2) * (R : ℝ) ≠ 0) :
    chordHeight R ts te (some d) =
      some (d / (Real.sin (angleStep ts te R / 2) * (R : ℝ))) := by
  simp [chordHeight, fdiv, hs]

lemma normRadius_some {total : ℕ} (x : ℝ) (ht : total ≠ 0) :
    normRadius total (some x) = some (x / (total : ℝ)) := by
  simp [normRadius, fdiv, Nat.cast_ne_zero.mpr ht]

lemma synthesize_some_polyAngles (R n : ℕ) (ts te : ℝ) (ds : List ℝ) :
    (synthesize R ts te (ds.map some) n).polyAngles =
      (((linspace ts te R).zip ds).map fun q =>
        [q.1, q.1 + angleStep ts te R]).flatten := by
  rw [synthesize_polyAngles, List.zip_map_right, List.map_map]
  rfl

lemma synthesize_some_radii_blocks {R n : ℕ} {ts te : ℝ} {ds : List ℝ}
    (hs : Real.sin (angleStep ts te R / 2) * (R : ℝ) ≠ 0) (hn : n ≠ 0) :
    (synthesize R ts te (ds.map some) n).polyRadii =
      (((linspace ts te R).zip ds).map fun q =>
        [some (chordNorm R ts te n q.2), some (chordNorm R ts te n q.2)]).flatten := by
  rw [synthesize_polyRadii, List.zip_map_right, List.map_map,
    List.map_flatten, List.map_map]
  congr 1
  apply List.map_congr_left
  intro q _
  simp only [Function.comp_apply, Prod.map_apply, Prod.map_snd, id_eq,
    Prod.snd, List.map_cons, List.map_nil, chordHeight_some q.2 hs,
    normRadius_some _ hn, chordNorm, div_div]

lemma synthesize_some_vertices {R n : ℕ} {ts te : ℝ} {ds : List ℝ}
    (hs : Real.sin (angleStep ts te R / 2) * (R : ℝ) ≠ 0) (hn : n ≠ 0) :
    ((synthesize R ts te (ds.map some) n).polyAngles).zip
        (synthesize R ts te (ds.map some) n).polyRadii =
      (((linspace ts te R).zip ds).map fun q =>
        [(q.1, some (chordNorm R ts te n q.2)),
         (q.1 + angleStep ts te R, some (chordNorm R ts te n q.2))]).flatten := by
  rw [synthesize_some_polyAngles, synthesize_some_radii_blocks hs hn,
    zip_flatten_pairs]

lemma synthesize_some_radii_length {R n : ℕ} {ts te : ℝ} {ds : List ℝ}
    (hs : Real.sin (angleStep ts te R / 2) * (R : ℝ) ≠ 0) (hn : n ≠ 0)
    (hlen : ds.length = R) :
    (synthesize R ts te (ds.map some) n).polyRadii.length = 2 * R := by
  rw [synthesize_some_radii_blocks hs hn, flatten_pairs_length,
    List.length_zip, linspace_length, hlen, min_self]

lemma synthesize_some_area {R n : ℕ} {ts te : ℝ} {ds : List ℝ}
    (hs : Real.sin (angleStep ts te R / 2) * (R : ℝ) ≠ 0) (hn : n ≠ 0)
    (hlen : ds.length = R) :
    (synthesize R ts te (ds.map some) n).polygonArea =
      some ((ds.map fun d => 0.5 * angleStep ts te R *
        (chordNorm R ts te n d ^ 2 + chordNorm R ts te n d ^ 2)).sum) := by
  rw [synthesize_polygonArea, synthesize_some_vertices hs hn,
    pairUp_flatten_pairs, List.map_map]
  have hc : ∀ q ∈ (linspace ts te R).zip ds,
      (wedgeArea ∘ fun q =>
        ((q.1, some (chordNorm R ts te n q.2)),
         (q.1 + angleStep ts te R, some (chordNorm R ts te n q.2)))) q =
      some (0.5 * angleStep ts te R *
        (chordNorm R ts te n q.2 ^ 2 + chordNorm R ts te n q.2 ^ 2)) := by
    intro q _
    simp only [Function.comp_apply, wedgeArea]
    congr 1
    ring
  rw [List.map_congr_left hc, optSum_map_some]
  congr 1
  have : ((linspace ts te R).zip ds).map (fun q =>
      0.5 * angleStep ts te R *
        (chordNorm R ts te n q.2 ^ 2 + chordNorm R ts te n q.2 ^ 2)) =
      (((linspace ts te R).zip ds).map Prod.snd).map (fun d =>
        0.5 * angleStep ts te R *
          (chordNorm R ts te n d ^ 2 + chordNorm R ts te n d ^ 2)) := by
    rw [List.map_map]
    rfl
  rw [this, List.map_snd_zip _ _ (by rw [linspace_length, hlen])]

lemma synthesize_some_max {R n : ℕ} {ts te : ℝ} {ds : List ℝ}
    (hs : Real.sin (angleStep ts te R / 2) * (R : ℝ) ≠ 0) (hn : n ≠ 0)
    (hR : R ≠ 0) (hlen : ds.length = R) :
    optMax (synthesize R ts te (ds.map some) n).polyRadii =
      some (listMax (ds.map (chordNorm R ts te n))) := by
  rw [synthesize_some_radii_blocks hs hn]
  have hrw : (((linspace ts te R).zip ds).map fun q =>
        [some (chordNorm R ts te n q.2), some (chordNorm R ts te n q.2)]).flatten =
      ((((linspace ts te R).zip ds).map fun q =>
        [chordNorm R ts te n q.2, chordNorm R ts te n q.2]).flatten).map some := by
    rw [List.map_flatten, List.map_map]
    rfl
  have hzne : (linspace ts te R).zip ds ≠ [] := by
    intro h
    have := congrArg List.length h
    rw [List.length_zip, linspace_length, hlen, min_self] at this
    exact hR this
  rw [hrw]
  cases hfl : (((linspace ts te R).zip ds).map fun q =>
      [chordNorm R ts te n q.2, chordNorm R ts te n q.2]).flatten with
  | nil =>
    exfalso
    have := congrArg List.length hfl
    rw [flatten_pairs_length, List.length_zip, linspace_length, hlen,
      min_self] at this
    simp only [List.length_nil] at this
    omega
  | cons y ys =>
    rw [optMax_map_some, ← hfl,
      listMax_flatten_dup (fun q => chordNorm R ts te n q.2) hzne]
    congr 1
    have : ((linspace ts te R).zip ds).map (fun q => chordNorm R ts te n q.2) =
        (((linspace ts te R).zip ds).map Prod.snd).map (chordNorm R ts te n) := by
      rw [List.map_map]
      rfl
    rw [this, List.map_snd_zip _ _ (by rw [linspace_length, hlen])]

lemma synthesize_some_roundness {R n : ℕ} {ts te : ℝ} {ds : List ℝ}
    (hs : Real.sin (angleStep ts te R / 2) * (R : ℝ) ≠ 0) (hn : n ≠ 0)
    (hR : R ≠ 0) (hlen : ds.length = R) :
    (synthesize R ts te (ds.map some) n).roundness =
      fdiv |(ds.map fun d => 0.5 * angleStep ts te R *
          (chordNorm R ts te n d ^ 2 + chordNorm R ts te n d ^ 2)).sum -
        Real.pi * listMax (ds.map (chordNorm R ts te n)) ^ 2|
        (Real.pi * listMax (ds.map (chordNorm R ts te n)) ^ 2) := by
  rw [synthesize_roundness, synthesize_some_area hs hn hlen,
    synthesize_some_max hs hn hR hlen]
  rfl

/-! ### Elements of linspace -/

lemma linspace_getElem (a b : ℝ) {n i : ℕ} (hn : 2 ≤ n) (hi : i < n) :
    (linspace a b n)[i]? =
      some (a + (i : ℝ) * ((b - a) / ((n : ℝ) - 1))) := by
  unfold linspace
  rw [if_neg (by omega), if_neg (by omega), List.getElem?_map,
    List.getElem?_range hi]
  rfl

lemma linspace_last (a b : ℝ) {n : ℕ} (hn : 2 ≤ n) :
    (linspace a b n)[n - 1]? = some b := by
  rw [linspace_getElem a b hn (by omega)]
  congr 1
  have hcast : ((n - 1 : ℕ) : ℝ) = (n : ℝ) - 1 := by
    rw [Nat.cast_sub (by omega), Nat.cast_one]
  have hne : (n : ℝ) - 1 ≠ 0 := by
    have h2 : (2 : ℝ) ≤ (n : ℝ) := by exact_mod_cast hn
    linarith
  rw [hcast, mul_div_cancel₀ (b - a) hne]
  ring

/-! ### The scan's three control-flow branches -/

lemma scanDivergences_bg_empty (R : ℕ) (fg : List (ℝ × ℝ)) (ts te : ℝ) :
    scanDivergences R fg [] ts te = some (List.replicate R (some 0)) := by
  simp [scanDivergences]

lemma scanDivergences_fg_empty {R : ℕ} (hR : R ≠ 0) {bg : List (ℝ × ℝ)}
    (hb : bg ≠ []) (ts te : ℝ) :
    scanDivergences R [] bg ts te = none := by
  simp [scanDivergences, hb, hR]

lemma scanDivergences_main {R : ℕ} {fg bg : List (ℝ × ℝ)} (hf : fg ≠ [])
    (hb : bg ≠ []) (ts te : ℝ) :
    scanDivergences R fg bg ts te =
      some ((linspace ts te R).map fun θ =>
        divergenceAt R (Real.cos θ) (Real.sin θ) fg bg) := by
  simp [scanDivergences, hb, hf]

lemma scanDivergences_length {R : ℕ} {fg bg : List (ℝ × ℝ)} {ts te : ℝ}
    {diffs : List (Option ℝ)}
    (h : scanDivergences R fg bg ts te = some diffs) : diffs.length = R := by
  unfold scanDivergences at h
  split_ifs at h with h1 h2
  · rw [← Option.some_inj.mp h, List.length_replicate]
  · rw [← Option.some_inj.mp h, List.length_map, linspace_length]

/-- A nonempty foreground forces a nonzero `sum(is_expressing)`. -/
lemma count_true_ne_zero {coords : List (ℝ × ℝ)} {mask : List Bool}
    (hf : foregroundOf coords mask ≠ []) : mask.count true ≠ 0 := by
  intro h0
  apply hf
  have hmem : true ∉ mask := List.count_eq_zero.mp h0
  unfold foregroundOf
  rw [List.filter_eq_nil_iff.mpr, List.map_nil]
  intro q hq
  have h2 : q.2 ∈ mask := by
    obtain ⟨x, y⟩ := q
    exact (List.of_mem_zip hq).2
  intro hq2
  rw [show q.2 = true from hq2] at h2
  exact hmem h2

lemma generatePolygonRes_eq {R : ℕ} {coords : List (ℝ × ℝ)}
    {mask : List Bool} (ts te : ℝ) (hlen : mask.length = coords.length) :
    generatePolygonRes R coords mask ts te =
      (scanDivergences R (foregroundOf coords mask)
          (backgroundOf coords mask) ts te).map
        fun diffs => synthesize R ts te diffs (mask.count true) := by
  unfold generatePolygonRes
  rw [if_neg (by simp [hlen])]

/-! ### Special values of the scan-loop body -/

lemma divergenceAt_single_zero (R : ℕ) (c s : ℝ) :
    divergenceAt R c s [((0:ℝ), 0)] [((0:ℝ), 0)] = none := by
  unfold divergenceAt
  rw [if_pos]
  simp [jointMax, jointMin, projections, proj, listMax, listMin]

lemma divergenceAt_proj_eq {R : ℕ} {c s : ℝ} {fg bg : List (ℝ × ℝ)}
    (hf : fg ≠ []) (hb : bg ≠ [])
    (hpe : projections c s fg = projections c s bg)
    (hd : jointMax c s fg bg ≠ jointMin c s fg bg) :
    divergenceAt R c s fg bg = some 0 := by
  rw [divergenceAt_eq_specL1_aux R c s fg bg hf hb hd]
  congr 1
  unfold divergenceSpecL1
  apply Finset.sum_eq_zero
  intro i _
  have hnorm : normProj c s fg bg bg = normProj c s fg bg fg := by
    unfold normProj
    rw [hpe]
  have hlen : fg.length = bg.length := by
    have := congrArg List.length hpe
    simpa [projections] using this
  rw [hnorm, hlen, sub_self, abs_zero]

/-- The per-angle scan at zero-spread input: every projection is `0`, the
normalization denominator is `0`, and the source computes `nan`. -/
lemma scan_zero_spread_aux (R : ℕ) (ts te : ℝ) :
    scanDivergences R [((0:ℝ), 0)] [((0:ℝ), 0)] ts te =
      some (List.replicate R none) := by
  rw [scanDivergences_main (by simp) (by simp)]
  congr 1
  apply List.eq_replicate_iff.mpr
  refine ⟨by rw [List.length_map, linspace_length], fun b hb => ?_⟩
  obtain ⟨θ, _, rfl⟩ := List.mem_map.mp hb
  exact divergenceAt_single_zero R (Real.cos θ) (Real.sin θ)

/-! ### Scale invariance of the scan -/

lemma projections_scale (k c s : ℝ) (ps : List (ℝ × ℝ)) :
    projections c s (scale k ps) = (projections c s ps).map fun x => k * x := by
  unfold projections scale
  rw [List.map_map, List.map_map]
  apply List.map_congr_left
  intro p _
  simp only [Function.comp_apply, proj]
  ring

lemma foldl_min_map_mul {k : ℝ} (hk : 0 ≤ k) (xs : List ℝ) :
    ∀ a : ℝ, (xs.map fun x => k * x).foldl min (k * a) = k * xs.foldl min a := by
  induction xs with
  | nil => intro a; simp
  | cons x xs ih =>
    intro a
    simp only [List.map_cons, List.foldl_cons, ← mul_min_of_nonneg _ _ hk]
    exact ih _

lemma foldl_max_map_mul {k : ℝ} (hk : 0 ≤ k) (xs : List ℝ) :
    ∀ a : ℝ, (xs.map fun x => k * x).foldl max (k * a) = k * xs.foldl max a := by
  induction xs with
  | nil => intro a; simp
  | cons x xs ih =>
    intro a
    simp only [List.map_cons, List.foldl_cons, ← mul_max_of_nonneg _ _ hk]
    exact ih _

lemma listMin_map_mul {k : ℝ} (hk : 0 ≤ k) (xs : List ℝ) :
    listMin (xs.map fun x => k * x) = k * listMin xs := by
  cases xs with
  | nil => simp [listMin]
  | cons x xs => exact foldl_min_map_mul hk xs x

lemma listMax_map_mul {k : ℝ} (hk : 0 ≤ k) (xs : List ℝ) :
    listMax (xs.map fun x => k * x) = k * listMax xs := by
  cases xs with
  | nil => simp [listMax]
  | cons x xs => exact foldl_max_map_mul hk xs x

lemma jointMin_scale {k : ℝ} (hk : 0 ≤ k) (c s : ℝ) (fg bg : List (ℝ × ℝ)) :
    jointMin c s (scale k fg) (scale k bg) = k * jointMin c s fg bg := by
  unfold jointMin
  rw [projections_scale, projections_scale, listMin_map_mul hk,
    listMin_map_mul hk, ← mul_min_of_nonneg _ _ hk]

lemma jointMax_scale {k : ℝ} (hk : 0 ≤ k) (c s : ℝ) (fg bg : List (ℝ × ℝ)) :
    jointMax c s (scale k fg) (scale k bg) = k * jointMax c s fg bg := by
  unfold jointMax
  rw [projections_scale, projections_scale, listMax_map_mul hk,
    listMax_map_mul hk, ← mul_max_of_nonneg _ _ hk]

lemma normProj_scale {k : ℝ} (hk : 0 < k) (c s : ℝ)
    (fg bg side : List (ℝ × ℝ)) :
    normProj c s (scale k fg) (scale k bg) (scale k side) =
      normProj c s fg bg side := by
  unfold normProj
  rw [projections_scale, jointMin_scale hk.le, jointMax_scale hk.le,
    List.map_map]
  apply List.map_congr_left
  intro x _
  simp only [Function.comp_apply]
  rw [← mul_sub, ← mul_sub, mul_div_mul_left _ _ (ne_of_gt hk)]

lemma divergenceAt_scale {k : ℝ} (hk : 0 < k) (R : ℕ) (c s : ℝ)
    (fg bg : List (ℝ × ℝ)) :
    divergenceAt R c s (scale k fg) (scale k bg) = divergenceAt R c s fg bg := by
  unfold divergenceAt
  have h1 : jointMax c s (scale k fg) (scale k bg) -
      jointMin c s (scale k fg) (scale k bg) =
      k * (jointMax c s fg bg - jointMin c s fg bg) := by
    rw [jointMax_scale hk.le, jointMin_scale hk.le, mul_sub]
  rw [h1, normProj_scale hk, normProj_scale hk]
  by_cases hd : jointMax c s fg bg - jointMin c s fg bg = 0
  · rw [hd, mul_zero]
  · rw [if_neg hd, if_neg (mul_ne_zero (ne_of_gt hk) hd)]

lemma scale_nil (k : ℝ) : scale k [] = [] := rfl

lemma scale_eq_nil_iff {k : ℝ} {ps : List (ℝ × ℝ)} :
    scale k ps = [] ↔ ps = [] := by
  unfold scale
  exact List.map_eq_nil_iff

/-! ### Nonnegativity of the two scalar metrics -/

lemma synthesize_radii_blocks_form (R : ℕ) (ts te : ℝ)
    (diffs : List (Option ℝ)) (total : ℕ) :
    (synthesize R ts te diffs total).polyRadii =
      (((linspace ts te R).zip diffs).map fun p =>
        [normRadius total (chordHeight R ts te p.2),
         normRadius total (chordHeight R ts te p.2)]).flatten := by
  rw [synthesize_polyRadii, List.map_flatten, List.map_map]
  rfl

lemma synthesize_area_nonneg {R total : ℕ} {ts te : ℝ}
    {diffs : List (Option ℝ)} (hts : ts ≤ te) :
    ∀ A : ℝ, (synthesize R ts te diffs total).polygonArea = some A → 0 ≤ A := by
  intro A hA
  rw [synthesize_polygonArea, synthesize_radii_blocks_form,
    synthesize_polyAngles, zip_flatten_pairs, pairUp_flatten_pairs,
    List.map_map] at hA
  refine optSum_nonneg ?_ A hA
  intro x hx v hv
  obtain ⟨q, _, rfl⟩ := List.mem_map.mp hx
  simp only [Function.comp_apply, wedgeArea] at hv
  have hstep : 0 ≤ angleStep ts te R :=
    div_nonneg (sub_nonneg.mpr hts) (Nat.cast_nonneg R)
  cases hr : normRadius total (chordHeight R ts te q.2) with
  | none => rw [hr] at hv; exact absurd hv (by simp)
  | some ra =>
    rw [hr] at hv
    simp only [Option.some_inj] at hv
    rw [← hv]
    have : q.1 + angleStep ts te R - q.1 = angleStep ts te R := by ring
    rw [this]
    positivity

lemma synthesize_roundness_nonneg {R total : ℕ} {ts te : ℝ}
    {diffs : List (Option ℝ)} :
    ∀ rd : ℝ, (synthesize R ts te diffs total).roundness = some rd → 0 ≤ rd := by
  intro rd hrd
  rw [synthesize_roundness] at hrd
  cases hA : (synthesize R ts te diffs total).polygonArea with
  | none => rw [hA] at hrd; exact absurd hrd (by simp)
  | some A =>
    rw [hA] at hrd
    cases hM : optMax (synthesize R ts te diffs total).polyRadii with
    | none => rw [hM] at hrd; exact absurd hrd (by simp)
    | some M =>
      rw [hM] at hrd
      simp only [Option.some_bind] at hrd
      unfold fdiv at hrd
      split_ifs at hrd with hc
      simp only [Option.some_inj] at hrd
      have hpos : 0 < Real.pi * M ^ 2 :=
        lt_of_le_of_ne (by positivity) (Ne.symm hc)
      rw [← hrd]
      exact div_nonneg (abs_nonneg _) hpos.le

/-! ### Claim theorems -/

/-- C1. For every angle sample with non-empty foreground and background
sets (and a nonzero joint normalization range, without which the pipeline
computes no number at all - see C6), the divergence value is computed by:
projecting every point of both sets onto the unit vector `(cos θ, sin θ)`
via dot product; jointly min-max normalizing both projection arrays into
`[0, 1]` using the combined minimum and maximum across both sets; building
an R-bin histogram over `[0, 1]` for each side and taking running sums as
CDFs; normalizing each CDF by its own final cumulative value (which equals
the side's point count) so it ends at 1; and taking the divergence to be
the sum of absolute pointwise differences between the two normalized CDFs
(an L1 distance). -/
theorem rsp_C1_divergence_pipeline (R : ℕ) (c s : ℝ) (fg bg : List (ℝ × ℝ))
    (hf : fg ≠ []) (hb : bg ≠ [])
    (hd : jointMax c s fg bg ≠ jointMin c s fg bg) :
    divergenceAt R c s fg bg = some (divergenceSpecL1 R c s fg bg) :=
  divergenceAt_eq_specL1_aux R c s fg bg hf hb hd

/-- C1 witness: the pipeline equality evaluated at a concrete angle and
point sets. -/
theorem rsp_C1_witness :
    divergenceAt 2 1 0 [((0:ℝ), 0)] [((1:ℝ), 0)] =
      some (divergenceSpecL1 2 1 0 [((0:ℝ), 0)] [((1:ℝ), 0)]) :=
  rsp_C1_divergence_pipeline 2 1 0 _ _ (by simp) (by simp)
    (by norm_num [jointMax, jointMin, projections, proj, listMax, listMin])

/-- C2. For every divergence sequence `d_0..d_{R-1}` and total foreground
count `n > 0`, the synthesizer emits for each sampled angle exactly two
vertices `(θ_i, h_i)` and `(θ_i + Δθ, h_i)` holding the same radius
`h_i = d_i / (sin(Δθ/2) · R)` divided by `n` (so the polygon has `2R`
vertices), computes `polygon_area` as the sum over each consecutive vertex
pair of one wedge of `0.5 · Δθ · (r_a² + r_b²)`, and computes roundness as
`|polygon_area − π·r_max²| / (π·r_max²)` where `r_max` is the maximum
radius in the polygon. -/
theorem rsp_C2_synthesizer_formulas (R n : ℕ) (ts te : ℝ) (ds : List ℝ)
    (hlen : ds.length = R) (hn : n ≠ 0) (hR : R ≠ 0)
    (hs : Real.sin (angleStep ts te R / 2) * (R : ℝ) ≠ 0) :
    ((synthesize R ts te (ds.map some) n).polyAngles).zip
        (synthesize R ts te (ds.map some) n).polyRadii =
      (((linspace ts te R).zip ds).map fun q =>
        [(q.1, some (chordNorm R ts te n q.2)),
         (q.1 + angleStep ts te R, some (chordNorm R ts te n q.2))]).flatten ∧
    (synthesize R ts te (ds.map some) n).polyRadii.length = 2 * R ∧
    (synthesize R ts te (ds.map some) n).polygonArea =
      some ((ds.map fun d => 0.5 * angleStep ts te R *
        (chordNorm R ts te n d ^ 2 + chordNorm R ts te n d ^ 2)).sum) ∧
    optMax (synthesize R ts te (ds.map some) n).polyRadii =
      some (listMax (ds.map (chordNorm R ts te n))) ∧
    (synthesize R ts te (ds.map some) n).roundness =
      fdiv |(ds.map fun d => 0.5 * angleStep ts te R *
          (chordNorm R ts te n d ^ 2 + chordNorm R ts te n d ^ 2)).sum -
        Real.pi * listMax (ds.map (chordNorm R ts te n)) ^ 2|
        (Real.pi * listMax (ds.map (chordNorm R ts te n)) ^ 2) :=
  ⟨synthesize_some_vertices hs hn, synthesize_some_radii_length hs hn hlen,
   synthesize_some_area hs hn hlen, synthesize_some_max hs hn hR hlen,
   synthesize_some_roundness hs hn hR hlen⟩

/-- C2 witness: the synthesizer at the one-wedge divergence sequence `[1]`
emits `2 · 1` vertices. -/
theorem rsp_C2_witness :
    (synthesize 1 0 Real.pi ([(1:ℝ)].map some) 1).polyRadii.length = 2 * 1 :=
  (rsp_C2_synthesizer_formulas 1 1 0 Real.pi [1] rfl (by norm_num)
    (by norm_num)
    (by
      rw [show angleStep 0 Real.pi 1 / 2 = Real.pi / 2 by
        simp [angleStep]]
      simp [Real.sin_pi_div_two])).2.1

/-- C3 counterexample: the endpoint `θ_end = 2π` IS one of the sampled
angles of the default scan (`np.linspace` includes its endpoint), refuting
the claim that the sampled set covers the half-open interval
`[θ_start, θ_end)` and never contains `θ_end`. -/
theorem rsp_C3_counterexample :
    (2 * Real.pi) ∈ linspace 0 (2 * Real.pi) 1000 :=
  List.getElem?_mem (linspace_last 0 (2 * Real.pi) (by norm_num))

/-- C3 amended: the scan samples exactly R angles covering the CLOSED
interval `[θ_start, θ_end]`, with consecutive spacing
`(θ_end − θ_start)/(R − 1)`; the i-th sample is
`θ_start + i·(θ_end − θ_start)/(R − 1)` and the endpoint `θ_end` is the
last sample (`Δθ = (θ_end − θ_start)/R` is used only for the polygon
wedges, not for the sample spacing). -/
theorem rsp_C3_amended (a b : ℝ) (n : ℕ) (hn : 2 ≤ n) :
    (linspace a b n).length = n ∧
    (∀ i, i < n → (linspace a b n)[i]? =
      some (a + (i : ℝ) * ((b - a) / ((n : ℝ) - 1)))) ∧
    (linspace a b n)[n - 1]? = some b :=
  ⟨linspace_length a b n, fun _ hi => linspace_getElem a b hn hi,
   linspace_last a b hn⟩

/-- C3 amended witness: the two-sample scan has length two and ends at the
endpoint. -/
theorem rsp_C3_amended_witness :
    (linspace 0 1 2).length = 2 ∧ (linspace 0 1 2)[2 - 1]? = some 1 :=
  ⟨(rsp_C3_amended 0 1 2 (by norm_num)).1,
   (rsp_C3_amended 0 1 2 (by norm_num)).2.2⟩

/-- C4. For every non-empty foreground set, if the background set is empty
then the divergence sequence is `0` at every one of the R sampled angles
and the resulting `polygon_area` equals `0`; the scan loop (the only place
dividing by the background's max or CDF) is skipped entirely, so no
division involving the empty set's max or CDF is attempted. -/
theorem rsp_C4_empty_background (R : ℕ) (coords : List (ℝ × ℝ))
    (mask : List Bool) (ts te : ℝ)
    (hlen : mask.length = coords.length)
    (hbg : backgroundOf coords mask = [])
    (hfg : foregroundOf coords mask ≠ [])
    (hs : Real.sin (angleStep ts te R / 2) * (R : ℝ) ≠ 0) :
    (generatePolygonRes R coords mask ts te).map
        (fun r => (r.differences, r.polygonArea)) =
      some (List.replicate R (some 0), some 0) := by
  rw [generatePolygonRes_eq ts te hlen, hbg, scanDivergences_bg_empty]
  simp only [Option.map_some', synthesize_differences,
    synthesize_zero_area hs (count_true_ne_zero hfg)]

/-- C4 witness: a single all-expressing point. -/
theorem rsp_C4_witness :
    (generatePolygonRes 1 [((1:ℝ), 1)] [true] 0 Real.pi).map
        (fun r => (r.differences, r.polygonArea)) =
      some (List.replicate 1 (some 0), some 0) :=
  rsp_C4_empty_background 1 [((1:ℝ), 1)] [true] 0 Real.pi rfl rfl
    (by simp [foregroundOf])
    (by
      rw [show angleStep 0 Real.pi 1 / 2 = Real.pi / 2 by
        simp [angleStep]]
      simp [Real.sin_pi_div_two])

/-- C5 (code-bug evidence). `generate_polygon` performs no input
validation: with a zero foreground count and an empty coordinate set it
returns a result object whose area and roundness are `nan` (here `none`) -
a partial result, no error; and with a zero foreground count over a
nonempty background it raises a `ValueError` from inside the first scan
iteration (`.min()` of a zero-size array, modeled as the scan returning
`none`), not a clear validation error issued before the algorithm. -/
theorem rsp_C5_no_validation :
    (generatePolygonRes 1000 [] [] 0 (2 * Real.pi)).map
        (fun r => (r.polygonArea, r.roundness)) = some (none, none) ∧
    scanDivergences 1000 [] [((1:ℝ), 2)] 0 (2 * Real.pi) = none := by
  constructor
  · rw [generatePolygonRes_eq 0 (2 * Real.pi) rfl,
      show backgroundOf ([] : List (ℝ × ℝ)) [] = [] from rfl,
      scanDivergences_bg_empty,
      show List.count true ([] : List Bool) = 0 from rfl]
    simp only [Option.map_some',
      synthesize_total_zero_area (List.length_replicate 1000 (some 0))
        (by norm_num),
      synthesize_total_zero_roundness (List.length_replicate 1000 (some 0))
        (by norm_num)]
  · exact scanDivergences_fg_empty (by norm_num) (by simp) 0 (2 * Real.pi)

/-- C6 (code-bug evidence). At an input whose combined projections have
equal minimum and maximum at every angle (both sets are the single point
`(0,0)`), the source divides by the zero normalization denominator with no
guard: every one of the 1000 angles records `nan` (here `none`), not the
divergence `0` that the spec requires. -/
theorem rsp_C6_zero_denominator_nan :
    scanDivergences 1000 [((0:ℝ), 0)] [((0:ℝ), 0)] 0 (2 * Real.pi) =
      some (List.replicate 1000 none) :=
  scan_zero_spread_aux 1000 0 (2 * Real.pi)

/-- C7. For every coordinate set with its aligned expression mask (and a
non-reversed angular bound, as in the default `[0, 2π]`), every finite
`polygon_area` and every finite `roundness` the computation returns is
nonnegative. -/
theorem rsp_C7_metrics_nonneg (R : ℕ) (coords : List (ℝ × ℝ))
    (mask : List Bool) (ts te : ℝ) (hts : ts ≤ te) :
    nonnegResult (generatePolygonRes R coords mask ts te) := by
  intro res hres
  rw [Option.mem_def] at hres
  unfold generatePolygonRes at hres
  split_ifs at hres with h1
  obtain ⟨diffs, _, rfl⟩ := Option.map_eq_some'.mp hres
  exact ⟨fun A hA => synthesize_area_nonneg hts A hA,
    fun rd hrd => synthesize_roundness_nonneg rd hrd⟩

/-- C7 witness. -/
theorem rsp_C7_witness : nonnegResult (generatePolygonRes 1 [] [] 0 1) :=
  rsp_C7_metrics_nonneg 1 [] [] 0 1 (by norm_num)

/-- C8. For every pair of foreground/background point sets and every
constant `k > 0`, scanning the uniformly scaled inputs `k·P_fg` and
`k·P_bg` produces exactly the same divergence sequence as scanning `P_fg`
and `P_bg`: the joint min-max projection normalization cancels the
scale. -/
theorem rsp_C8_scale_invariance (k : ℝ) (hk : 0 < k) (R : ℕ)
    (fg bg : List (ℝ × ℝ)) (ts te : ℝ) :
    scanDivergences R (scale k fg) (scale k bg) ts te =
      scanDivergences R fg bg ts te := by
  unfold scanDivergences
  by_cases hbg : bg = []
  · rw [hbg, scale_nil]
    simp
  · have hsb : scale k bg ≠ [] := fun h => hbg (scale_eq_nil_iff.mp h)
    rw [if_neg hsb, if_neg hbg]
    simp only [scale_eq_nil_iff]
    by_cases hfg : fg = [] ∧ R ≠ 0
    · rw [if_pos hfg, if_pos hfg]
    · rw [if_neg hfg, if_neg hfg]
      congr 1
      apply List.map_congr_left
      intro θ _
      exact divergenceAt_scale hk R (Real.cos θ) (Real.sin θ) fg bg

/-- C8 witness: doubling a concrete pair of point sets. -/
theorem rsp_C8_witness :
    scanDivergences 5 (scale 2 [((1:ℝ), 0)]) (scale 2 [((0:ℝ), 1)]) 0 1 =
      scanDivergences 5 [((1:ℝ), 0)] [((0:ℝ), 1)] 0 1 :=
  rsp_C8_scale_invariance 2 (by norm_num) 5 [((1:ℝ), 0)] [((0:ℝ), 1)] 0 1

/-- C9 counterexample: foreground and background are two copies of the same
single point, so their projections are identical at every angle, yet the
divergence sequence is all `nan` (here `none`), not all zeros, and
`polygon_area` is not `0`: the joint spread is zero at every angle, so
every angle divides by a zero denominator. -/
theorem rsp_C9_counterexample :
    foregroundOf [((0:ℝ), 0), (0, 0)] [true, false] =
      backgroundOf [((0:ℝ), 0), (0, 0)] [true, false] ∧
    (generatePolygonRes 1000 [((0:ℝ), 0), (0, 0)] [true, false] 0
        (2 * Real.pi)).map PolygonResult.differences =
      some (List.replicate 1000 none) ∧
    List.replicate 1000 (none : Option ℝ) ≠
      List.replicate 1000 (some (0 : ℝ)) := by
  refine ⟨rfl, ?_, ?_⟩
  · rw [generatePolygonRes_eq 0 (2 * Real.pi) rfl,
      show foregroundOf [((0:ℝ), 0), (0, 0)] [true, false] = [((0:ℝ), 0)]
        from rfl,
      show backgroundOf [((0:ℝ), 0), (0, 0)] [true, false] = [((0:ℝ), 0)]
        from rfl,
      scan_zero_spread_aux]
    simp only [Option.map_some', synthesize_differences]
  · intro h
    have h2 := (List.eq_replicate_iff.mp h).2 none
      (List.mem_replicate.mpr ⟨by norm_num, rfl⟩)
    exact Option.noConfusion h2

/-- C9 amended: if the foreground and background projections are identical
at every sampled angle AND the combined projections have nonzero spread at
every sampled angle (and the wedge-height denominator `sin(Δθ/2)·R` is
nonzero, as with the default bound), then the divergence sequence is all
zeros and `polygon_area = 0`. -/
theorem rsp_C9_amended (R : ℕ) (coords : List (ℝ × ℝ)) (mask : List Bool)
    (ts te : ℝ) (hlen : mask.length = coords.length)
    (hf : foregroundOf coords mask ≠ [])
    (hb : backgroundOf coords mask ≠ [])
    (hproj : ∀ θ ∈ linspace ts te R,
      projections (Real.cos θ) (Real.sin θ) (foregroundOf coords mask) =
        projections (Real.cos θ) (Real.sin θ) (backgroundOf coords mask))
    (hspread : ∀ θ ∈ linspace ts te R,
      jointMax (Real.cos θ) (Real.sin θ) (foregroundOf coords mask)
          (backgroundOf coords mask) ≠
        jointMin (Real.cos θ) (Real.sin θ) (foregroundOf coords mask)
          (backgroundOf coords mask))
    (hs : Real.sin (angleStep ts te R / 2) * (R : ℝ) ≠ 0) :
    (generatePolygonRes R coords mask ts te).map
        (fun r => (r.differences, r.polygonArea)) =
      some (List.replicate R (some 0), some 0) := by
  rw [generatePolygonRes_eq ts te hlen, scanDivergences_main hf hb]
  have hmap : (linspace ts te R).map (fun θ =>
      divergenceAt R (Real.cos θ) (Real.sin θ) (foregroundOf coords mask)
        (backgroundOf coords mask)) = List.replicate R (some 0) := by
    apply List.eq_replicate_iff.mpr
    refine ⟨by rw [List.length_map, linspace_length], fun b hbm => ?_⟩
    obtain ⟨θ, hθ, rfl⟩ := List.mem_map.mp hbm
    exact divergenceAt_proj_eq hf hb (hproj θ hθ) (hspread θ hθ)
  rw [hmap]
  simp only [Option.map_some', synthesize_differences,
    synthesize_zero_area hs (count_true_ne_zero hf)]

/-- C9 amended witness: foreground and background both equal to
`[(0,0), (1,0)]`, scanned over two angles. -/
theorem rsp_C9_amended_witness :
    (generatePolygonRes 2 [((0:ℝ), 0), (1, 0), (0, 0), (1, 0)]
        [true, true, false, false] 0 Real.pi).map
        (fun r => (r.differences, r.polygonArea)) =
      some (List.replicate 2 (some 0), some 0) :=
  rsp_C9_amended 2 [((0:ℝ), 0), (1, 0), (0, 0), (1, 0)]
    [true, true, false, false] 0 Real.pi rfl
    (by simp [foregroundOf]) (by simp [backgroundOf])
    (fun θ _ => rfl)
    (by
      intro θ hθ
      have hlsp : linspace 0 Real.pi 2 = [0, Real.pi] := by
        unfold linspace
        norm_num [List.range_succ]
      rw [hlsp] at hθ
      rcases (by simpa using hθ : θ = 0 ∨ θ = Real.pi) with rfl | rfl
      · norm_num [Real.cos_zero, Real.sin_zero, jointMax, jointMin,
          projections, proj, listMax, listMin, foregroundOf, backgroundOf,
          max_def, min_def]
      · norm_num [Real.cos_pi, Real.sin_pi, jointMax, jointMin,
          projections, proj, listMax, listMin, foregroundOf, backgroundOf,
          max_def, min_def])
    (by
      rw [show angleStep 0 Real.pi 2 / 2 = Real.pi / 4 by
        rw [angleStep]
        push_cast
        ring]
      rw [Real.sin_pi_div_four]
      have h2 : (0:ℝ) < Real.sqrt 2 := Real.sqrt_pos.mpr (by norm_num)
      positivity)

/-- C10. Whenever the background set is empty (and the foreground is not),
every radius of the constructed polygon is `0`, the maximum radius is `0`,
and the roundness computation divides `|polygon_area − π·r_max²|` by the
zero quantity `π·r_max²` with no guard: the division is performed and
yields a non-finite value (`none`). -/
theorem rsp_C10_roundness_division_by_zero (R : ℕ) (coords : List (ℝ × ℝ))
    (mask : List Bool) (ts te : ℝ) (hR : R ≠ 0)
    (hlen : mask.length = coords.length)
    (hbg : backgroundOf coords mask = [])
    (hfg : foregroundOf coords mask ≠ [])
    (hs : Real.sin (angleStep ts te R / 2) * (R : ℝ) ≠ 0) :
    (generatePolygonRes R coords mask ts te).map
        (fun r => (r.polyRadii, optMax r.polyRadii, r.roundness)) =
      some (List.replicate (2 * R) (some 0), some 0, none) := by
  rw [generatePolygonRes_eq ts te hlen, hbg, scanDivergences_bg_empty]
  have ht := count_true_ne_zero hfg
  simp only [Option.map_some', synthesize_zero_radii hs ht,
    optMax_replicate_zero (show 2 * R ≠ 0 by omega),
    synthesize_zero_roundness hs ht hR]

/-- C10 witness: a single all-expressing point. -/
theorem rsp_C10_witness :
    (generatePolygonRes 1 [((2:ℝ), 3)] [true] 0 Real.pi).map
        (fun r => (r.polyRadii, optMax r.polyRadii, r.roundness)) =
      some (List.replicate (2 * 1) (some 0), some 0, none) :=
  rsp_C10_roundness_division_by_zero 1 [((2:ℝ), 3)] [true] 0 Real.pi
    (by norm_num) rfl rfl (by simp [foregroundOf])
    (by
      rw [show angleStep 0 Real.pi 1 / 2 = Real.pi / 2 by
        simp [angleStep]]
      simp [Real.sin_pi_div_two])

end RSP
